import Mathlib

/-
Shallow embedding of the character-level seq2seq notebook
`src/lstm_seq2seq.ipynb` (vectorization of the parallel-text data,
vocabulary construction, one-hot tensor building, and the greedy
autoregressive decoding loop `decode_sequence`), together with proofs of
the specification's claims about it.

Python strings are modelled as `List Char`; the float entries of the
one-hot numpy tensors take only the values 0.0 and 1.0 and are modelled
as `Bool`; the float vectors flowing through the inference models
(softmax distributions and LSTM hidden/cell states) are modelled as
`List ℚ`.
-/

namespace LstmSeq2Seq

/-- Python strings are modelled as lists of characters. -/
abbrev Text := List Char

/-! ## Data loading (`with open(data_path) ... for line in lines[:...]`) -/

/-- Embeds `line.split("\t")` (CPython `str.split` with an explicit
separator): split on every occurrence of the tab character, keeping empty
fields; the empty string splits to one empty field. -/
def splitTab : Text → List Text
  | [] => [[]]
  | c :: cs =>
      if c = '\t' then [] :: splitTab cs
      else
        match splitTab cs with
        | [] => [[c]]
        | f :: r => (c :: f) :: r

/-- Embeds `input_text, target_text, _ = line.split("\t")`: the unpacking
binds exactly three fields and keeps the first two; `none` models the
`ValueError` Python raises when the split does not yield exactly three
tab-separated fields (there is no validation or recovery in the source). -/
def parseLine (line : Text) : Option (Text × Text) :=
  match splitTab line with
  | [a, b, _] => some (a, b)
  | _ => none

/-- Embeds the body of `for line in lines[: min(num_samples, len(lines) - 1)]`
over an explicit list of lines, collecting the `(input_text, target_text)`
pairs; a failing unpack anywhere makes the whole load fail. -/
def loadLoop : List Text → Option (List (Text × Text))
  | [] => some []
  | l :: ls =>
      match parseLine l with
      | none => none
      | some p =>
          match loadLoop ls with
          | none => none
          | some ps => some (p :: ps)

/-- Embeds `min(num_samples, len(lines) - 1)`, the number of lines the
loader processes. -/
def numProcessed (num_samples : Nat) (lines : List Text) : Nat :=
  min num_samples (lines.length - 1)

/-- The loader: process exactly the first `min(num_samples, len(lines) - 1)`
lines of the file. -/
def loadPairs (num_samples : Nat) (lines : List Text) : Option (List (Text × Text)) :=
  loadLoop (lines.take (numProcessed num_samples lines))

/-- Embeds `target_text = "\t" + target_text + "\n"`: every raw target text
is wrapped in the start marker `'\t'` and the end marker `'\n'`. -/
def wrapTarget (s : Text) : Text := '\t' :: (s ++ ['\n'])

/-- The list `target_texts` accumulated by the loader, from the raw second
fields of the processed lines. -/
def target_texts (raw : List Text) : List Text := raw.map wrapTarget

/-! ## Vocabularies and token indices -/

/-- Embeds `sorted(list(chars))` where `chars` is the set of characters
occurring in the given texts: the duplicate-free character list, sorted. -/
def buildVocab (texts : List Text) : Text :=
  List.insertionSort (· ≤ ·) texts.flatten.dedup

/-- Embeds `token_index[char]` for the dictionary
`dict([(char, i) for i, char in enumerate(chars)])`: each character of the
duplicate-free vocabulary is sent to its position in the list. -/
def tokenIndex (vocab : Text) (c : Char) : Nat := List.indexOf c vocab

/-- Embeds `input_characters` (after `sorted(list(...))`). -/
def input_characters (input_texts : List Text) : Text := buildVocab input_texts

/-- Embeds `num_encoder_tokens = len(input_characters)`. -/
def num_encoder_tokens (input_texts : List Text) : Nat :=
  (input_characters input_texts).length

/-- Embeds `target_characters` (after `sorted(list(...))`), built from the
already-wrapped target texts. -/
def target_characters (raw : List Text) : Text := buildVocab (target_texts raw)

/-- Embeds `num_decoder_tokens = len(target_characters)`. -/
def num_decoder_tokens (raw : List Text) : Nat := (target_characters raw).length

/-- Embeds `max([len(txt) for txt in texts])`; on the empty list Python's
`max` raises, here the value is 0 (the claims only use nonempty datasets). -/
def max_seq_length (texts : List Text) : Nat :=
  (texts.map List.length).foldr max 0

/-- Embeds `max_encoder_seq_length`. -/
def max_encoder_seq_length (input_texts : List Text) : Nat :=
  max_seq_length input_texts

/-- Embeds `max_decoder_seq_length` (over the wrapped target texts). -/
def max_decoder_seq_length (raw : List Text) : Nat :=
  max_seq_length (target_texts raw)

/-- Embeds `reverse_target_char_index = dict((i, char) for char, i in
target_token_index.items())`: since `target_token_index` sends the
character at position `i` of the vocabulary to `i`, the reverse dictionary
is lookup by position; `none` models a missing key. -/
def reverse_target_char_index (raw : List Text) (i : Nat) : Option Char :=
  (target_characters raw).get? i

/-! ## One-hot tensors

Each tensor is built by `np.zeros` followed by index assignments of `1.0`,
so an entry is `1.0` exactly when some assignment targets it; entries are
modelled as `Bool`.  The trailing-padding assignments use the loop
variable `t` left over from `for t, char in enumerate(text)`, whose final
value is `len(text) - 1`; for a nonempty `text` the padded region
`[t + 1 :]` therefore starts at `len(text)` (for an empty text the Python
code would reuse a stale `t`, which is why the corresponding claims
assume the texts nonempty). -/

/-- Entry `(t, k)` of row `i` of `encoder_input_data`, for the text
`input_texts[i]`: the assignments are
`encoder_input_data[i, t, input_token_index[char]] = 1.0` for each
character position, and
`encoder_input_data[i, t + 1 :, input_token_index[" "]] = 1.0`. -/
def encoder_entry (idx : Char → Nat) (text : Text) (t k : Nat) : Bool :=
  (match text.get? t with
   | some c => decide (k = idx c)
   | none => false)
  || (decide (text.length ≤ t) && decide (k = idx ' '))

/-- Entry `(t, k)` of row `i` of `decoder_input_data`, for the wrapped text
`target_texts[i]`: assignments
`decoder_input_data[i, t, target_token_index[char]] = 1.0` and
`decoder_input_data[i, t + 1 :, target_token_index[" "]] = 1.0`. -/
def decoder_input_entry (idx : Char → Nat) (text : Text) (t k : Nat) : Bool :=
  (match text.get? t with
   | some c => decide (k = idx c)
   | none => false)
  || (decide (text.length ≤ t) && decide (k = idx ' '))

/-- Entry `(t, k)` of row `i` of `decoder_target_data`: the character at
position `p > 0` of the wrapped text is assigned at timestep `p - 1`
(`decoder_target_data[i, t - 1, target_token_index[char]] = 1.0` under
`if t > 0`), and the padding is `decoder_target_data[i, t :, ...] = 1.0`
with `t = len(text) - 1` after the loop. -/
def decoder_target_entry (idx : Char → Nat) (text : Text) (t k : Nat) : Bool :=
  (match text.get? (t + 1) with
   | some c => decide (k = idx c)
   | none => false)
  || (decide (text.length - 1 ≤ t) && decide (k = idx ' '))

/-- A row (an `(example, timestep)` slice) of a tensor whose one-hot axis
has width `n`, as the list of its entries. -/
def tensorRow (n : Nat) (entry : Nat → Bool) : List Bool :=
  (List.range n).map entry

/-- The `(i, t)` slice of `encoder_input_data` (third axis width
`num_encoder_tokens`, from the `np.zeros` shape). -/
def encoder_input_data (input_texts : List Text) (i t : Nat) : List Bool :=
  tensorRow (num_encoder_tokens input_texts)
    (encoder_entry (tokenIndex (input_characters input_texts))
      (input_texts.getD i []) t)

/-- The `(i, t)` slice of `decoder_input_data` (third axis width
`num_decoder_tokens`). -/
def decoder_input_data (raw : List Text) (i t : Nat) : List Bool :=
  tensorRow (num_decoder_tokens raw)
    (decoder_input_entry (tokenIndex (target_characters raw))
      ((target_texts raw).getD i []) t)

/-- The `(i, t)` slice of `decoder_target_data` (third axis width
`num_decoder_tokens`). -/
def decoder_target_data (raw : List Text) (i t : Nat) : List Bool :=
  tensorRow (num_decoder_tokens raw)
    (decoder_target_entry (tokenIndex (target_characters raw))
      ((target_texts raw).getD i []) t)

/-- The one-hot row of width `n` with the single `1.0` at position `j`. -/
def oneHot (n j : Nat) : List Bool :=
  (List.range n).map (fun k => decide (k = j))

/-- A row is exactly one-hot: some position `j` within the row is true and
every other position is false. -/
def ExactlyOneHot (r : List Bool) : Prop :=
  ∃ j, j < r.length ∧ ∀ k, k < r.length → (r.get? k = some true ↔ k = j)

/-! ## Inference models and the greedy decoding loop

The trained keras models are opaque learned functions; the decoding loop
is written against any such functions.  `encoder_model.predict` maps an
input sequence to the pair of hidden/cell state vectors, and
`decoder_model.predict([target_seq] + states_value)` maps a one-token
one-hot input and a state pair to the next-character distribution
`output_tokens[0, -1, :]` together with the new state pair `(h, c)`. -/

/-- The one-token one-hot float row `target_seq[0, 0, :]` of width `n`
with the `1.0` at position `j`. -/
def oneHotQ (n j : Nat) : List ℚ :=
  (List.range n).map (fun k => if k = j then 1 else 0)

/-- Helper for `np.argmax`: scan the remaining entries, keeping the index
of the best value seen so far; a strictly greater value updates it, so the
first occurrence of the maximum wins, as in numpy. -/
def argmaxGo : Nat → Nat → ℚ → List ℚ → Nat
  | _, best, _, [] => best
  | pos, best, bestVal, x :: xs =>
      if bestVal < x then argmaxGo (pos + 1) pos x xs
      else argmaxGo (pos + 1) best bestVal xs

/-- Embeds `np.argmax(output_tokens[0, -1, :])`: the index of the first
occurrence of the maximum (0 on the empty list, where numpy raises). -/
def argmax : List ℚ → Nat
  | [] => 0
  | x :: xs => argmaxGo 1 0 x xs

/-- The data `decode_sequence` closes over: the dimensions and the start
index `target_token_index["\t"]`, the reverse character lookup, and the
two reconstructed inference models.  The state threaded between decoder
steps is the pair `(h, c)` of hidden/cell vectors. -/
structure InferenceModel (ι : Type) where
  latent_dim : Nat
  num_decoder_tokens : Nat
  max_decoder_seq_length : Nat
  start_index : Nat
  reverse_target_char_index : Nat → Char
  encoder_model : ι → List ℚ × List ℚ
  decoder_model : List ℚ → List ℚ × List ℚ → List ℚ × (List ℚ × List ℚ)

/-- The sampling `while` loop of `decode_sequence`, with an explicit fuel
bound on the number of iterations (the theorems below show that any fuel
of at least `max_decoder_seq_length + 1` gives the loop's behaviour):
run one decoder step, take the argmax, append the sampled character, stop
when it is `'\n'` or the sentence length exceeds `max_decoder_seq_length`,
otherwise feed the sampled token back as the next one-hot input together
with the returned states. -/
def sampleLoop {ι : Type} (M : InferenceModel ι) :
    Nat → List ℚ → List ℚ × List ℚ → Text → Text
  | 0, _, _, acc => acc
  | fuel + 1, target_seq, states_value, acc =>
      let out := M.decoder_model target_seq states_value
      let sampled_token_index := argmax out.1
      let sampled_char := M.reverse_target_char_index sampled_token_index
      let decoded := acc ++ [sampled_char]
      if sampled_char = '\n' ∨ M.max_decoder_seq_length < decoded.length then
        decoded
      else
        sampleLoop M fuel (oneHotQ M.num_decoder_tokens sampled_token_index)
          out.2 decoded

/-- Embeds `decode_sequence`: encode the input into the initial states,
start from the one-hot start token, and run the sampling loop on the
empty decoded sentence. -/
def decode_sequence {ι : Type} (M : InferenceModel ι) (input_seq : ι) : Text :=
  sampleLoop M (M.max_decoder_seq_length + 1)
    (oneHotQ M.num_decoder_tokens M.start_index)
    (M.encoder_model input_seq) []

/-- Spec-side greedy stream (from the specification's description of the
decoding loop): repeatedly run one decoder step, take the arg-max of the
output distribution, emit the corresponding character, and feed it back as
the next one-token input together with the updated state; `n` characters
are produced. -/
def greedyChars {ι : Type} (M : InferenceModel ι) :
    Nat → List ℚ → List ℚ × List ℚ → Text
  | 0, _, _ => []
  | n + 1, target_seq, states =>
      let out := M.decoder_model target_seq states
      let j := argmax out.1
      M.reverse_target_char_index j ::
        greedyChars M n (oneHotQ M.num_decoder_tokens j) out.2

/-- Spec-side truncation at the end-of-sequence marker: keep everything up
to and including the first `'\n'`, or the whole list when there is none. -/
def takeToNewline : Text → Text
  | [] => []
  | c :: cs => if c = '\n' then [c] else c :: takeToNewline cs

/-- The `(target_seq, states_value)` configuration fed into the `k`-th
decoder step of `decode_sequence`: step 0 consumes the start token and the
encoder's output states, and step `k + 1` consumes the one-hot of the
argmax sampled at step `k` together with the `(h, c)` pair returned by
step `k`. -/
def decodeTraj {ι : Type} (M : InferenceModel ι) (input_seq : ι) :
    Nat → List ℚ × (List ℚ × List ℚ)
  | 0 => (oneHotQ M.num_decoder_tokens M.start_index,
          M.encoder_model input_seq)
  | k + 1 =>
      let p := decodeTraj M input_seq k
      let out := M.decoder_model p.1 p.2
      (oneHotQ M.num_decoder_tokens (argmax out.1), out.2)

/-- Modelled from the spec: the keras LSTM layers (framework code, not in
the repository) produce hidden and cell state vectors of length
`latent_dim`; a model is state-well-formed when its encoder output states
and the states returned by every decoder step have that length. -/
def StateWellFormed {ι : Type} (M : InferenceModel ι) : Prop :=
  (∀ x, (M.encoder_model x).1.length = M.latent_dim ∧
        (M.encoder_model x).2.length = M.latent_dim) ∧
  (∀ t s, ((M.decoder_model t s).2.1.length = M.latent_dim ∧
           (M.decoder_model t s).2.2.length = M.latent_dim))

/-! ## The recurrent layer, modelled from the spec

The training-time decoder runs the LSTM over the whole target sequence
with `return_sequences=True` and applies the dense softmax layer at every
timestep; the inference-time decoder applies one cell step and the same
dense layer.  The LSTM cell itself is framework code, modelled as an
arbitrary function from an input and a state to an output and a state. -/

/-- Modelled from the spec: a recurrent layer with `return_sequences=True`
applies the cell to each input in order, threading the state, and returns
the per-timestep outputs. -/
def runRecurrent {α σ β : Type} (cell : α → σ → β × σ) (st : σ) :
    List α → List β
  | [] => []
  | x :: xs => (cell x st).1 :: runRecurrent cell (cell x st).2 xs

/-- The state of the cell after consuming a list of inputs, starting from
`st` (the state the one-step decoder carries forward). -/
def statesAfter {α σ β : Type} (cell : α → σ → β × σ) (st : σ)
    (xs : List α) : σ :=
  xs.foldl (fun s x => (cell x s).2) st

/-- The single-step inference decoder reconstructed from the same two
trained layers: one cell step followed by the dense softmax layer, also
returning the new state. -/
def decoderStep {σ : Type} (cell : List ℚ → σ → List ℚ × σ)
    (dense : List ℚ → List ℚ) : List ℚ → σ → List ℚ × σ :=
  fun t st => (dense (cell t st).1, (cell t st).2)

/-! ## Concrete inference models used as test inputs -/

/-- A concrete inference model whose decoder always emits the character
`'a'`: length cap 1, one decoder token. -/
def driftModel : InferenceModel Unit :=
  ⟨0, 1, 1, 0, fun _ => 'a', fun _ => ([], []), fun _ _ => ([1], ([], []))⟩

/-- A concrete state-well-formed inference model with `latent_dim = 1`. -/
def wfModel : InferenceModel Unit :=
  ⟨1, 1, 1, 0, fun _ => 'a', fun _ => ([0], [0]), fun _ _ => ([1], ([0], [0]))⟩

/-! ## Lemmas about the sampling loop -/

/-- Every greedy stream of `n` steps has exactly `n` characters. -/
theorem greedyChars_length {ι : Type} (M : InferenceModel ι) :
    ∀ n target states, (greedyChars M n target states).length = n := by
  intro n
  induction n with
  | zero => intro target states; rfl
  | succ n ih =>
      intro target states
      simp only [greedyChars, List.length_cons, ih]

/-- Truncating at the end marker can only shorten a list. -/
theorem takeToNewline_length_le : ∀ l : Text, (takeToNewline l).length ≤ l.length := by
  intro l
  induction l with
  | nil => exact Nat.le_refl 0
  | cons c cs ih =>
      simp only [takeToNewline]
      by_cases hc : c = '\n'
      · rw [if_pos hc]; simp
      · rw [if_neg hc]; simpa using ih

/-- The truncation either ends with the end marker or keeps the whole
list. -/
theorem takeToNewline_last :
    ∀ l : Text, (takeToNewline l).getLast? = some '\n' ∨
      (takeToNewline l).length = l.length := by
  intro l
  induction l with
  | nil => exact Or.inr rfl
  | cons c cs ih =>
      simp only [takeToNewline]
      by_cases hc : c = '\n'
      · rw [if_pos hc, hc]; exact Or.inl rfl
      · rw [if_neg hc]
        rcases ih with h | h
        · left
          rcases he : takeToNewline cs with _ | ⟨x, r⟩
          · rw [he] at h; exact absurd h (by simp)
          · rw [he] at h; rw [List.getLast?_cons_cons]; exact h
        · right; simpa using h

/-- The sampling loop, run with enough fuel from a partial sentence that
has not yet hit the cap, appends the greedy stream truncated at the first
end marker, where the number of greedy steps is what remains of the
`max_decoder_seq_length + 1` character budget. -/
theorem sampleLoop_eq {ι : Type} (M : InferenceModel ι) :
    ∀ fuel target states acc,
      M.max_decoder_seq_length + 1 ≤ acc.length + fuel →
      acc.length ≤ M.max_decoder_seq_length →
      sampleLoop M fuel target states acc =
        acc ++ takeToNewline
          (greedyChars M (M.max_decoder_seq_length + 1 - acc.length)
            target states) := by
  intro fuel
  induction fuel with
  | zero => intro target states acc h1 h2; omega
  | succ f ih =>
      intro target states acc h1 h2
      have hm : M.max_decoder_seq_length + 1 - acc.length
          = (M.max_decoder_seq_length - acc.length) + 1 := by omega
      rw [hm]
      simp only [sampleLoop, greedyChars, takeToNewline]
      by_cases hch : M.reverse_target_char_index
          (argmax (M.decoder_model target states).1) = '\n'
      · rw [if_pos (Or.inl hch), if_pos hch, hch]
      · by_cases hlen : M.max_decoder_seq_length <
            (acc ++ [M.reverse_target_char_index
              (argmax (M.decoder_model target states).1)]).length
        · have hz : M.max_decoder_seq_length - acc.length = 0 := by
            simp only [List.length_append, List.length_cons,
              List.length_nil] at hlen
            omega
          rw [if_pos (Or.inr hlen), if_neg hch, hz]
          simp [greedyChars, takeToNewline]
        · have hlen' : acc.length + 1 ≤ M.max_decoder_seq_length := by
            simp only [List.length_append, List.length_cons,
              List.length_nil] at hlen
            omega
          rw [if_neg (not_or.mpr ⟨hch, hlen⟩), if_neg hch]
          rw [ih _ _ _ (by simp; omega) (by simp; omega)]
          have hs : M.max_decoder_seq_length + 1 -
              (acc ++ [M.reverse_target_char_index
                (argmax (M.decoder_model target states).1)]).length
              = M.max_decoder_seq_length - acc.length := by
            simp only [List.length_append, List.length_cons, List.length_nil]
            omega
          rw [hs]
          simp [List.append_assoc]

/-- C1 (counterexample): with a decoder that never emits the end marker
and a length cap of 1, `decode_sequence` returns a 2-character sentence,
so the output neither ends with `'\n'` nor has length at most
`max_decoder_seq_length`. -/
theorem decoded_sentence_cap_counterexample :
    ¬ ((decode_sequence driftModel ()).getLast? = some '\n' ∨
       (decode_sequence driftModel ()).length ≤
         driftModel.max_decoder_seq_length) := by decide

/-- C1 (amended): for every inference model and every input sequence, the
sentence returned by `decode_sequence` has length at most
`max_decoder_seq_length + 1`, and it either ends with the end-of-sequence
marker `'\n'` or has length exactly `max_decoder_seq_length + 1` (one
character past the cap, because the loop checks the cap only after
appending). -/
theorem decoded_sentence_terminated_or_capped {ι : Type}
    (M : InferenceModel ι) (input_seq : ι) :
    (decode_sequence M input_seq).length ≤ M.max_decoder_seq_length + 1 ∧
    ((decode_sequence M input_seq).getLast? = some '\n' ∨
     (decode_sequence M input_seq).length = M.max_decoder_seq_length + 1) := by
  have h := sampleLoop_eq M (M.max_decoder_seq_length + 1)
    (oneHotQ M.num_decoder_tokens M.start_index)
    (M.encoder_model input_seq) [] (by simp) (by simp)
  simp only [List.length_nil, Nat.sub_zero, List.nil_append] at h
  rw [decode_sequence, h]
  constructor
  · calc (takeToNewline (greedyChars M (M.max_decoder_seq_length + 1)
          (oneHotQ M.num_decoder_tokens M.start_index)
          (M.encoder_model input_seq))).length
        ≤ (greedyChars M (M.max_decoder_seq_length + 1)
            (oneHotQ M.num_decoder_tokens M.start_index)
            (M.encoder_model input_seq)).length := takeToNewline_length_le _
      _ = M.max_decoder_seq_length + 1 := greedyChars_length M _ _ _
  · rcases takeToNewline_last (greedyChars M (M.max_decoder_seq_length + 1)
        (oneHotQ M.num_decoder_tokens M.start_index)
        (M.encoder_model input_seq)) with hl | hl
    · exact Or.inl hl
    · exact Or.inr (hl.trans (greedyChars_length M _ _ _))

/-- C2: `decode_sequence` is exactly greedy autoregressive decoding: its
output is the stream obtained by repeatedly running one decoder step from
the one-hot start symbol and the encoder states, taking the arg-max of
each output distribution, and feeding the sampled character back as the
next one-token input together with the updated states
(`greedyChars`), truncated at the first end marker
(`takeToNewline`) within the `max_decoder_seq_length + 1` character
budget enforced by the loop's cap check. -/
theorem decode_sequence_eq_greedy {ι : Type} (M : InferenceModel ι)
    (input_seq : ι) :
    decode_sequence M input_seq =
      takeToNewline (greedyChars M (M.max_decoder_seq_length + 1)
        (oneHotQ M.num_decoder_tokens M.start_index)
        (M.encoder_model input_seq)) := by
  have h := sampleLoop_eq M (M.max_decoder_seq_length + 1)
    (oneHotQ M.num_decoder_tokens M.start_index)
    (M.encoder_model input_seq) [] (by simp) (by simp)
  simpa [decode_sequence] using h

/-- C9: the sampling loop terminates: its result is already stable at fuel
`max_decoder_seq_length + 1` (any larger iteration budget computes the
same sentence, so the loop runs at most `max_decoder_seq_length + 1`
iterations), each iteration appends exactly one character, and the
decoded sentence has between 1 and `max_decoder_seq_length + 1`
characters. -/
theorem decode_sequence_terminates {ι : Type} (M : InferenceModel ι)
    (input_seq : ι) (fuel : Nat)
    (hf : M.max_decoder_seq_length + 1 ≤ fuel) :
    sampleLoop M fuel (oneHotQ M.num_decoder_tokens M.start_index)
        (M.encoder_model input_seq) [] = decode_sequence M input_seq ∧
    1 ≤ (decode_sequence M input_seq).length ∧
    (decode_sequence M input_seq).length ≤ M.max_decoder_seq_length + 1 := by
  have h1 := sampleLoop_eq M fuel
    (oneHotQ M.num_decoder_tokens M.start_index)
    (M.encoder_model input_seq) [] (by simpa using hf) (by simp)
  have h2 := sampleLoop_eq M (M.max_decoder_seq_length + 1)
    (oneHotQ M.num_decoder_tokens M.start_index)
    (M.encoder_model input_seq) [] (by simp) (by simp)
  refine ⟨?_, ?_, ?_⟩
  · rw [decode_sequence, h1, h2]
  · rw [decode_sequence, h2]
    simp only [List.length_nil, Nat.sub_zero, List.nil_append]
    simp only [greedyChars, takeToNewline]
    split
    · simp
    · simp
  · rw [decode_sequence, h2]
    simp only [List.length_nil, Nat.sub_zero, List.nil_append]
    calc (takeToNewline (greedyChars M (M.max_decoder_seq_length + 1)
          (oneHotQ M.num_decoder_tokens M.start_index)
          (M.encoder_model input_seq))).length
        ≤ (greedyChars M (M.max_decoder_seq_length + 1)
            (oneHotQ M.num_decoder_tokens M.start_index)
            (M.encoder_model input_seq)).length := takeToNewline_length_le _
      _ = M.max_decoder_seq_length + 1 := greedyChars_length M _ _ _

/-- Witness for C9 at a concrete model and a fuel of 5. -/
theorem decode_sequence_terminates_witness :
    sampleLoop driftModel 5
        (oneHotQ driftModel.num_decoder_tokens driftModel.start_index)
        (driftModel.encoder_model ()) [] = decode_sequence driftModel () ∧
    1 ≤ (decode_sequence driftModel ()).length ∧
    (decode_sequence driftModel ()).length ≤
      driftModel.max_decoder_seq_length + 1 :=
  decode_sequence_terminates driftModel () 5 (by decide)

/-- The greedy stream started from the `k`-th decoding configuration
emits, step by step, the characters sampled along the decoding
trajectory. -/
theorem greedyChars_decodeTraj {ι : Type} (M : InferenceModel ι) (x : ι) :
    ∀ n k, greedyChars M n (decodeTraj M x k).1 (decodeTraj M x k).2 =
      (List.range' k n).map (fun j => M.reverse_target_char_index
        (argmax (M.decoder_model (decodeTraj M x j).1
          (decodeTraj M x j).2).1)) := by
  intro n
  induction n with
  | zero => intro k; rfl
  | succ n ih =>
      intro k
      rw [List.range'_succ, List.map_cons]
      simp only [greedyChars]
      have h1 : (decodeTraj M x (k + 1)).1 =
          oneHotQ M.num_decoder_tokens (argmax (M.decoder_model
            (decodeTraj M x k).1 (decodeTraj M x k).2).1) := rfl
      have h2 : (decodeTraj M x (k + 1)).2 =
          (M.decoder_model (decodeTraj M x k).1 (decodeTraj M x k).2).2 := rfl
      rw [← h1, ← h2, ih (k + 1)]

/-- Proof that the concrete model `wfModel` is state-well-formed. -/
theorem wfModel_wellFormed : StateWellFormed wfModel :=
  ⟨fun _ => ⟨rfl, rfl⟩, fun _ _ => ⟨rfl, rfl⟩⟩

/-- C7: for a state-well-formed model, the state consumed by decoder step
0 is the encoder's output state pair, the state consumed by step `k + 1`
is exactly the `(h, c)` pair returned by step `k`, every such state is a
pair of vectors of length `latent_dim`, and `decode_sequence` is the
end-marker truncation of the characters sampled along this
state-threading trajectory. -/
theorem decoder_state_threading {ι : Type} (M : InferenceModel ι) (x : ι)
    (h : StateWellFormed M) :
    (decodeTraj M x 0).2 = M.encoder_model x ∧
    (∀ k, (decodeTraj M x (k + 1)).2 =
        (M.decoder_model (decodeTraj M x k).1 (decodeTraj M x k).2).2) ∧
    (∀ k, (decodeTraj M x k).2.1.length = M.latent_dim ∧
          (decodeTraj M x k).2.2.length = M.latent_dim) ∧
    decode_sequence M x =
      takeToNewline ((List.range (M.max_decoder_seq_length + 1)).map
        (fun j => M.reverse_target_char_index
          (argmax (M.decoder_model (decodeTraj M x j).1
            (decodeTraj M x j).2).1))) := by
  refine ⟨rfl, fun k => rfl, ?_, ?_⟩
  · intro k
    induction k with
    | zero => exact h.1 x
    | succ k _ => exact h.2 (decodeTraj M x k).1 (decodeTraj M x k).2
  · have ht := greedyChars_decodeTraj M x (M.max_decoder_seq_length + 1) 0
    rw [List.range_eq_range', ← ht]
    have h0 := sampleLoop_eq M (M.max_decoder_seq_length + 1)
      (oneHotQ M.num_decoder_tokens M.start_index)
      (M.encoder_model x) [] (by simp) (by simp)
    simpa [decode_sequence] using h0

/-- Witness for C7 at the concrete state-well-formed model. -/
theorem decoder_state_threading_witness :
    (decodeTraj wfModel () 0).2 = wfModel.encoder_model () ∧
    (decodeTraj wfModel () 1).2.1.length = wfModel.latent_dim :=
  ⟨(decoder_state_threading wfModel () wfModel_wellFormed).1,
   ((decoder_state_threading wfModel () wfModel_wellFormed).2.2.1 1).1⟩

/-- C8: for any cell and dense layer (the two trained layers shared by the
training-time and inference-time decoders), the `k`-th per-step output
distribution of the training-time decoder — the recurrent layer run over
the whole input sequence from the initial state, with the dense layer
applied at every timestep — equals the output of the reconstructed
single-step inference decoder applied to the `k`-th input and the `(h, c)`
state carried forward through the first `k` steps. -/
theorem inference_decoder_matches_training {σ : Type}
    (cell : List ℚ → σ → List ℚ × σ) (dense : List ℚ → List ℚ) (s0 : σ)
    (xs : List (List ℚ)) (k : Nat) (hk : k < xs.length) :
    ((runRecurrent cell s0 xs).map dense).get? k =
      some (decoderStep cell dense (xs.get ⟨k, hk⟩)
        (statesAfter cell s0 (xs.take k))).1 := by
  induction xs generalizing s0 k with
  | nil => exact absurd hk (by simp)
  | cons x xs ih =>
      cases k with
      | zero => rfl
      | succ k =>
          have hk' : k < xs.length := Nat.lt_of_succ_lt_succ (by simpa using hk)
          have h := ih (cell x s0).2 k hk'
          simpa [runRecurrent, statesAfter] using h

/-- Witness for C8 at a concrete cell, dense layer and input sequence. -/
theorem inference_decoder_matches_training_witness :
    ((runRecurrent (fun t (_ : Unit) => (t, ())) () [[1], [2]]).map id).get? 1 =
      some (decoderStep (fun t (_ : Unit) => (t, ())) id
        ([[1], [2]].get ⟨1, by decide⟩)
        (statesAfter (fun t (_ : Unit) => (t, ())) () ([[1], [2]].take 1))).1 :=
  inference_decoder_matches_training (fun t (_ : Unit) => (t, ())) id ()
    [[1], [2]] 1 (by decide)

/-! ## Lemmas about the loader -/

/-- A line parses exactly when splitting it on tab yields some three
fields, of which the first two are kept. -/
theorem parseLine_eq_some (l : Text) (a b : Text) :
    parseLine l = some (a, b) ↔ ∃ nt, splitTab l = [a, b, nt] := by
  rcases h : splitTab l with _ | ⟨x, _ | ⟨y, _ | ⟨z, _ | d⟩⟩⟩ <;>
    simp [parseLine, h]

/-- A line fails to parse exactly when splitting it on tab does not yield
exactly three fields (the unpacking `input_text, target_text, _ = ...`
raises). -/
theorem parseLine_eq_none (l : Text) :
    parseLine l = none ↔ (splitTab l).length ≠ 3 := by
  rcases h : splitTab l with _ | ⟨x, _ | ⟨y, _ | ⟨z, _ | d⟩⟩⟩ <;>
    simp [parseLine, h]

/-- The loader's loop fails exactly when some processed line fails to
parse. -/
theorem loadLoop_eq_none : ∀ ls : List Text,
    loadLoop ls = none ↔ ∃ l ∈ ls, parseLine l = none := by
  intro ls
  induction ls with
  | nil => simp [loadLoop]
  | cons l ls ih =>
      constructor
      · intro h
        simp only [loadLoop] at h
        rcases hp : parseLine l with _ | p
        · exact ⟨l, List.mem_cons_self l ls, hp⟩
        · rw [hp] at h
          rcases h2 : loadLoop ls with _ | ps
          · obtain ⟨x, hx, hpx⟩ := ih.mp h2
            exact ⟨x, List.mem_cons_of_mem l hx, hpx⟩
          · rw [h2] at h
            exact absurd h (by simp)
      · rintro ⟨x, hx, hpx⟩
        rcases List.mem_cons.mp hx with hx | hx
        · subst hx
          simp [loadLoop, hpx]
        · have hn : loadLoop ls = none := ih.mpr ⟨x, hx, hpx⟩
          simp only [loadLoop, hn]
          rcases hp : parseLine l with _ | p <;> simp [hp]

/-- A successful load yields one pair per processed line. -/
theorem loadLoop_length : ∀ (ls : List Text) (ps : List (Text × Text)),
    loadLoop ls = some ps → ps.length = ls.length := by
  intro ls
  induction ls with
  | nil => intro ps h; simp [loadLoop] at h; simp [← h]
  | cons l ls ih =>
      intro ps h
      simp only [loadLoop] at h
      rcases hp : parseLine l with _ | p <;> rw [hp] at h
      · exact absurd h (by simp)
      · rcases h2 : loadLoop ls with _ | qs <;> rw [h2] at h
        · exact absurd h (by simp)
        · have := ih qs h2
          simp only [Option.some_inj] at h
          rw [← h]
          simp [this]

/-- C6: the loader processes exactly the first
`min(num_samples, len(lines) - 1)` lines; a processed line parses exactly
when splitting it on tab yields three fields, of which the first two are
bound and kept; loading fails (the unpacking raises, with no validation or
recovery) exactly when some processed line does not split into exactly
three tab-separated fields; and a successful load yields exactly
`min(num_samples, len(lines) - 1)` pairs. -/
theorem loader_takes_min_lines (num_samples : Nat) (lines : List Text) :
    loadPairs num_samples lines =
      loadLoop (lines.take (min num_samples (lines.length - 1))) ∧
    (∀ l a b, parseLine l = some (a, b) ↔ ∃ nt, splitTab l = [a, b, nt]) ∧
    (loadPairs num_samples lines = none ↔
      ∃ l ∈ lines.take (min num_samples (lines.length - 1)),
        (splitTab l).length ≠ 3) ∧
    (∀ ps, loadPairs num_samples lines = some ps →
      ps.length = min num_samples (lines.length - 1)) := by
  refine ⟨rfl, parseLine_eq_some, ?_, ?_⟩
  · rw [loadPairs, numProcessed, loadLoop_eq_none]
    exact exists_congr fun l =>
      and_congr_right fun _ => parseLine_eq_none l
  · intro ps h
    have hlen := loadLoop_length _ ps h
    rw [List.length_take] at hlen
    have hle : min num_samples (lines.length - 1) ≤ lines.length :=
      le_trans (Nat.min_le_right _ _) (Nat.sub_le _ _)
    rw [hlen, numProcessed, Nat.min_eq_left hle]

/-- Witness for C6: a bad second line makes the load of two lines fail,
and loading one good line yields its first two fields. -/
theorem loader_takes_min_lines_witness :
    loadPairs 2 [['a', '\t', 'b', '\t', 'c'], ['x'], ['y']] = none ∧
    ∀ ps, loadPairs 1 [['a', '\t', 'b', '\t', 'c'], ['x']] = some ps →
      ps.length = 1 :=
  ⟨(loader_takes_min_lines 2 [['a', '\t', 'b', '\t', 'c'], ['x'], ['y']]).2.2.1.mpr
      ⟨['x'], by decide, by decide⟩,
   fun ps h =>
    (loader_takes_min_lines 1 [['a', '\t', 'b', '\t', 'c'], ['x']]).2.2.2 ps h⟩

/-! ## Lemmas about vocabularies and token indices -/

/-- The built vocabulary is a permutation of the duplicate-free character
list of the texts. -/
theorem buildVocab_perm (texts : List Text) :
    (buildVocab texts).Perm texts.flatten.dedup :=
  List.perm_insertionSort _ _

/-- The built vocabulary is sorted. -/
theorem buildVocab_sorted (texts : List Text) :
    List.Sorted (· ≤ ·) (buildVocab texts) :=
  List.sorted_insertionSort _ _

/-- The built vocabulary has no duplicate characters. -/
theorem buildVocab_nodup (texts : List Text) : (buildVocab texts).Nodup :=
  (buildVocab_perm texts).nodup_iff.mpr (List.nodup_dedup _)

/-- A character is in the built vocabulary exactly when it occurs in some
of the texts. -/
theorem mem_buildVocab (texts : List Text) (c : Char) :
    c ∈ buildVocab texts ↔ ∃ t ∈ texts, c ∈ t := by
  rw [(buildVocab_perm texts).mem_iff, List.mem_dedup, List.mem_flatten]

/-- The token index of a vocabulary character is a valid dense index. -/
theorem tokenIndex_lt_of_mem {vocab : Text} {c : Char} (h : c ∈ vocab) :
    tokenIndex vocab c < vocab.length :=
  List.indexOf_lt_length.mpr h

/-- The token index is injective on the vocabulary. -/
theorem tokenIndex_inj {vocab : Text} {c d : Char} (hc : c ∈ vocab)
    (hd : d ∈ vocab) (h : tokenIndex vocab c = tokenIndex vocab d) : c = d :=
  (List.indexOf_inj hc hd).mp h

/-- Every dense index below the vocabulary size is the token index of some
vocabulary character. -/
theorem tokenIndex_surj {vocab : Text} (hn : vocab.Nodup) {j : Nat}
    (hj : j < vocab.length) : ∃ c ∈ vocab, tokenIndex vocab c = j :=
  ⟨vocab[j], List.getElem_mem hj, List.indexOf_getElem hn j hj⟩

/-- Each tensor row has the width fixed by the `np.zeros` shape. -/
theorem tensorRow_length (n : Nat) (entry : Nat → Bool) :
    (tensorRow n entry).length = n := by
  simp [tensorRow]

/-- C4: each side's vocabulary is a sorted duplicate-free list of exactly
the characters occurring in that side's texts; the token index maps each
vocabulary character bijectively onto the dense range below the
vocabulary size (`num_encoder_tokens` / `num_decoder_tokens`); and the
one-hot width of every tensor row equals the corresponding vocabulary
size. -/
theorem vocab_sorted_dense_bijective (input_texts raw : List Text) :
    List.Sorted (· ≤ ·) (input_characters input_texts) ∧
    (input_characters input_texts).Nodup ∧
    (∀ c, c ∈ input_characters input_texts ↔ ∃ t ∈ input_texts, c ∈ t) ∧
    List.Sorted (· ≤ ·) (target_characters raw) ∧
    (target_characters raw).Nodup ∧
    (∀ c, c ∈ target_characters raw ↔ ∃ t ∈ target_texts raw, c ∈ t) ∧
    (∀ c, c ∈ input_characters input_texts →
      tokenIndex (input_characters input_texts) c <
        num_encoder_tokens input_texts) ∧
    (∀ c d, c ∈ input_characters input_texts →
      d ∈ input_characters input_texts →
      tokenIndex (input_characters input_texts) c =
        tokenIndex (input_characters input_texts) d → c = d) ∧
    (∀ j, j < num_encoder_tokens input_texts →
      ∃ c ∈ input_characters input_texts,
        tokenIndex (input_characters input_texts) c = j) ∧
    (∀ c, c ∈ target_characters raw →
      tokenIndex (target_characters raw) c < num_decoder_tokens raw) ∧
    (∀ c d, c ∈ target_characters raw → d ∈ target_characters raw →
      tokenIndex (target_characters raw) c =
        tokenIndex (target_characters raw) d → c = d) ∧
    (∀ j, j < num_decoder_tokens raw →
      ∃ c ∈ target_characters raw, tokenIndex (target_characters raw) c = j) ∧
    (∀ i t, (encoder_input_data input_texts i t).length =
      num_encoder_tokens input_texts) ∧
    (∀ i t, (decoder_input_data raw i t).length = num_decoder_tokens raw) ∧
    (∀ i t, (decoder_target_data raw i t).length = num_decoder_tokens raw) :=
  ⟨buildVocab_sorted _, buildVocab_nodup _, mem_buildVocab _,
   buildVocab_sorted _, buildVocab_nodup _, mem_buildVocab _,
   fun _ hc => tokenIndex_lt_of_mem hc,
   fun _ _ hc hd h => tokenIndex_inj hc hd h,
   fun _ hj => tokenIndex_surj (buildVocab_nodup _) hj,
   fun _ hc => tokenIndex_lt_of_mem hc,
   fun _ _ hc hd h => tokenIndex_inj hc hd h,
   fun _ hj => tokenIndex_surj (buildVocab_nodup _) hj,
   fun _ _ => tensorRow_length _ _,
   fun _ _ => tensorRow_length _ _,
   fun _ _ => tensorRow_length _ _⟩

/-- Witness for C4 at a concrete dataset. -/
theorem vocab_sorted_dense_bijective_witness :
    ('a' ∈ input_characters [['b', 'a']] ↔ ∃ t ∈ [['b', 'a']], 'a' ∈ t) ∧
    tokenIndex (input_characters [['b', 'a']]) 'a' <
      num_encoder_tokens [['b', 'a']] ∧
    (encoder_input_data [['b', 'a']] 0 0).length =
      num_encoder_tokens [['b', 'a']] := by
  obtain ⟨h1, h2, h3, h4, h5, h6, h7, h8, h9, h10, h11, h12, h13, h14, h15⟩ :=
    vocab_sorted_dense_bijective [['b', 'a']] [[]]
  exact ⟨h3 'a', h7 'a' (by decide), h13 0 0⟩

/-- C3: the decoder target tensor is the decoder input tensor shifted one
timestep earlier: for every example `i` and every timestep
`t ≤ max_decoder_seq_length - 2`, the `(i, t)` slice of
`decoder_target_data` equals the `(i, t + 1)` slice of
`decoder_input_data` (the start character is dropped and the space
padding fills the tail). -/
theorem target_is_shifted_input (raw : List Text) (i t : Nat)
    (_hi : i < raw.length) (_ht : t + 2 ≤ max_decoder_seq_length raw) :
    decoder_target_data raw i t = decoder_input_data raw i (t + 1) := by
  unfold decoder_target_data decoder_input_data tensorRow
  refine List.map_congr_left fun k _ => ?_
  unfold decoder_target_entry decoder_input_entry
  have hd : decide (((target_texts raw).getD i []).length - 1 ≤ t)
      = decide (((target_texts raw).getD i []).length ≤ t + 1) :=
    decide_eq_decide.mpr (by omega)
  rw [hd]

/-- Witness for C3 at a concrete dataset. -/
theorem target_is_shifted_input_witness :
    decoder_target_data [[]] 0 0 = decoder_input_data [[]] 0 1 :=
  target_is_shifted_input [[]] 0 0 (by decide) (by decide)

/-! ## Lemmas about one-hot rows -/

/-- The one-hot row of width `n` has length `n`. -/
theorem oneHot_length (n j : Nat) : (oneHot n j).length = n := by
  simp [oneHot]

/-- Entry `k` of the one-hot row tells whether `k` is the hot position. -/
theorem oneHot_get? {n j k : Nat} (hk : k < n) :
    (oneHot n j).get? k = some (decide (k = j)) := by
  rw [oneHot, List.get?_map, List.get?_range hk, Option.map_some']

/-- A one-hot row with its hot position in range is exactly one-hot. -/
theorem exactlyOneHot_oneHot {n j : Nat} (h : j < n) :
    ExactlyOneHot (oneHot n j) := by
  refine ⟨j, ?_, ?_⟩
  · rw [oneHot_length]; exact h
  · intro k hk
    rw [oneHot_length] at hk
    rw [oneHot_get? hk]
    simp

/-- In the character region (`text[t]` exists), an `encoder_input_data`
entry is the one-hot test against that character's index. -/
theorem encoder_entry_char {idx : Char → Nat} {text : Text} {t k : Nat}
    {c : Char} (h : text.get? t = some c) :
    encoder_entry idx text t k = decide (k = idx c) := by
  have hlt : t < text.length := by
    by_contra hc
    push_neg at hc
    rw [List.get?_eq_none.mpr hc] at h
    exact absurd h (by simp)
  rw [encoder_entry, h, decide_eq_false (by omega : ¬ text.length ≤ t)]
  simp

/-- In the padding region (`t` at or past the text length), an
`encoder_input_data` entry is the one-hot test against the space index. -/
theorem encoder_entry_pad {idx : Char → Nat} {text : Text} {t k : Nat}
    (h : text.length ≤ t) :
    encoder_entry idx text t k = decide (k = idx ' ') := by
  rw [encoder_entry, List.get?_eq_none.mpr h, decide_eq_true h]
  simp

/-- Character-region entry of `decoder_input_data`, as for the encoder. -/
theorem decoder_input_entry_char {idx : Char → Nat} {text : Text}
    {t k : Nat} {c : Char} (h : text.get? t = some c) :
    decoder_input_entry idx text t k = decide (k = idx c) := by
  have hlt : t < text.length := by
    by_contra hc
    push_neg at hc
    rw [List.get?_eq_none.mpr hc] at h
    exact absurd h (by simp)
  rw [decoder_input_entry, h, decide_eq_false (by omega : ¬ text.length ≤ t)]
  simp

/-- Padding-region entry of `decoder_input_data`, as for the encoder. -/
theorem decoder_input_entry_pad {idx : Char → Nat} {text : Text} {t k : Nat}
    (h : text.length ≤ t) :
    decoder_input_entry idx text t k = decide (k = idx ' ') := by
  rw [decoder_input_entry, List.get?_eq_none.mpr h, decide_eq_true h]
  simp

/-- In the shifted character region (`text[t + 1]` exists), a
`decoder_target_data` entry is the one-hot test against that character's
index. -/
theorem decoder_target_entry_char {idx : Char → Nat} {text : Text}
    {t k : Nat} {c : Char} (h : text.get? (t + 1) = some c) :
    decoder_target_entry idx text t k = decide (k = idx c) := by
  have hlt : t + 1 < text.length := by
    by_contra hc
    push_neg at hc
    rw [List.get?_eq_none.mpr hc] at h
    exact absurd h (by simp)
  rw [decoder_target_entry, h,
    decide_eq_false (by omega : ¬ text.length - 1 ≤ t)]
  simp

/-- In the padding region (from timestep `len(text) - 1` on), a
`decoder_target_data` entry is the one-hot test against the space
index. -/
theorem decoder_target_entry_pad {idx : Char → Nat} {text : Text}
    {t k : Nat} (h : text.length - 1 ≤ t) :
    decoder_target_entry idx text t k = decide (k = idx ' ') := by
  rw [decoder_target_entry,
    List.get?_eq_none.mpr (by omega : text.length ≤ t + 1),
    decide_eq_true h]
  simp

/-- C5: assuming every input text is nonempty (so the padding slice
`[t + 1 :]` starts right after the text) and the space character occurs in
both vocabularies, every `(example, timestep)` slice of
`encoder_input_data`, `decoder_input_data` and `decoder_target_data` is
exactly one-hot: a timestep covered by the text encodes that text's
character there (for `decoder_target_data`, the character one timestep
ahead), and every later timestep encodes the space padding character. -/
theorem tensor_slices_one_hot (input_texts raw : List Text)
    (_hne : ∀ txt ∈ input_texts, txt ≠ [])
    (hsp_in : ' ' ∈ input_characters input_texts)
    (hsp_tg : ' ' ∈ target_characters raw) :
    (∀ i, i < input_texts.length →
      ∀ t, t < max_encoder_seq_length input_texts →
      ExactlyOneHot (encoder_input_data input_texts i t) ∧
      (∀ c, (input_texts.getD i []).get? t = some c →
        encoder_input_data input_texts i t =
          oneHot (num_encoder_tokens input_texts)
            (tokenIndex (input_characters input_texts) c)) ∧
      ((input_texts.getD i []).length ≤ t →
        encoder_input_data input_texts i t =
          oneHot (num_encoder_tokens input_texts)
            (tokenIndex (input_characters input_texts) ' '))) ∧
    (∀ i, i < raw.length → ∀ t, t < max_decoder_seq_length raw →
      ExactlyOneHot (decoder_input_data raw i t) ∧
      (∀ c, ((target_texts raw).getD i []).get? t = some c →
        decoder_input_data raw i t =
          oneHot (num_decoder_tokens raw)
            (tokenIndex (target_characters raw) c)) ∧
      (((target_texts raw).getD i []).length ≤ t →
        decoder_input_data raw i t =
          oneHot (num_decoder_tokens raw)
            (tokenIndex (target_characters raw) ' '))) ∧
    (∀ i, i < raw.length → ∀ t, t < max_decoder_seq_length raw →
      ExactlyOneHot (decoder_target_data raw i t) ∧
      (∀ c, ((target_texts raw).getD i []).get? (t + 1) = some c →
        decoder_target_data raw i t =
          oneHot (num_decoder_tokens raw)
            (tokenIndex (target_characters raw) c)) ∧
      (((target_texts raw).getD i []).length - 1 ≤ t →
        decoder_target_data raw i t =
          oneHot (num_decoder_tokens raw)
            (tokenIndex (target_characters raw) ' '))) := by
  have hrowEnc : ∀ i t c, (input_texts.getD i []).get? t = some c →
      encoder_input_data input_texts i t =
        oneHot (num_encoder_tokens input_texts)
          (tokenIndex (input_characters input_texts) c) := by
    intro i t c hc
    unfold encoder_input_data tensorRow oneHot
    exact List.map_congr_left fun k _ => encoder_entry_char hc
  have hrowEncPad : ∀ i t, (input_texts.getD i []).length ≤ t →
      encoder_input_data input_texts i t =
        oneHot (num_encoder_tokens input_texts)
          (tokenIndex (input_characters input_texts) ' ') := by
    intro i t hpad
    unfold encoder_input_data tensorRow oneHot
    exact List.map_congr_left fun k _ => encoder_entry_pad hpad
  have hrowDin : ∀ i t c, ((target_texts raw).getD i []).get? t = some c →
      decoder_input_data raw i t =
        oneHot (num_decoder_tokens raw)
          (tokenIndex (target_characters raw) c) := by
    intro i t c hc
    unfold decoder_input_data tensorRow oneHot
    exact List.map_congr_left fun k _ => decoder_input_entry_char hc
  have hrowDinPad : ∀ i t, ((target_texts raw).getD i []).length ≤ t →
      decoder_input_data raw i t =
        oneHot (num_decoder_tokens raw)
          (tokenIndex (target_characters raw) ' ') := by
    intro i t hpad
    unfold decoder_input_data tensorRow oneHot
    exact List.map_congr_left fun k _ => decoder_input_entry_pad hpad
  have hrowDtg : ∀ i t c,
      ((target_texts raw).getD i []).get? (t + 1) = some c →
      decoder_target_data raw i t =
        oneHot (num_decoder_tokens raw)
          (tokenIndex (target_characters raw) c) := by
    intro i t c hc
    unfold decoder_target_data tensorRow oneHot
    exact List.map_congr_left fun k _ => decoder_target_entry_char hc
  have hrowDtgPad : ∀ i t, ((target_texts raw).getD i []).length - 1 ≤ t →
      decoder_target_data raw i t =
        oneHot (num_decoder_tokens raw)
          (tokenIndex (target_characters raw) ' ') := by
    intro i t hpad
    unfold decoder_target_data tensorRow oneHot
    exact List.map_congr_left fun k _ => decoder_target_entry_pad hpad
  have hmemIn : ∀ i, i < input_texts.length →
      ∀ c, c ∈ input_texts.getD i [] → c ∈ input_characters input_texts := by
    intro i hi c hc
    rw [List.getD_eq_getElem _ _ hi] at hc
    exact (mem_buildVocab _ _).mpr ⟨_, List.getElem_mem hi, hc⟩
  have hmemTg : ∀ i, i < raw.length →
      ∀ c, c ∈ (target_texts raw).getD i [] → c ∈ target_characters raw := by
    intro i hi c hc
    have hi' : i < (target_texts raw).length := by
      simpa [target_texts] using hi
    rw [List.getD_eq_getElem _ _ hi'] at hc
    exact (mem_buildVocab _ _).mpr ⟨_, List.getElem_mem hi', hc⟩
  refine ⟨?_, ?_, ?_⟩
  · intro i hi t _
    refine ⟨?_, fun c hc => hrowEnc i t c hc, fun hpad => hrowEncPad i t hpad⟩
    rcases hg : (input_texts.getD i []).get? t with _ | c
    · rw [hrowEncPad i t (List.get?_eq_none.mp hg)]
      exact exactlyOneHot_oneHot (tokenIndex_lt_of_mem hsp_in)
    · rw [hrowEnc i t c hg]
      exact exactlyOneHot_oneHot
        (tokenIndex_lt_of_mem (hmemIn i hi c (List.get?_mem hg)))
  · intro i hi t _
    refine ⟨?_, fun c hc => hrowDin i t c hc, fun hpad => hrowDinPad i t hpad⟩
    rcases hg : ((target_texts raw).getD i []).get? t with _ | c
    · rw [hrowDinPad i t (List.get?_eq_none.mp hg)]
      exact exactlyOneHot_oneHot (tokenIndex_lt_of_mem hsp_tg)
    · rw [hrowDin i t c hg]
      exact exactlyOneHot_oneHot
        (tokenIndex_lt_of_mem (hmemTg i hi c (List.get?_mem hg)))
  · intro i hi t _
    refine ⟨?_, fun c hc => hrowDtg i t c hc, fun hpad => hrowDtgPad i t hpad⟩
    rcases hg : ((target_texts raw).getD i []).get? (t + 1) with _ | c
    · have hlen : ((target_texts raw).getD i []).length ≤ t + 1 :=
        List.get?_eq_none.mp hg
      rw [hrowDtgPad i t (by omega)]
      exact exactlyOneHot_oneHot (tokenIndex_lt_of_mem hsp_tg)
    · rw [hrowDtg i t c hg]
      exact exactlyOneHot_oneHot
        (tokenIndex_lt_of_mem (hmemTg i hi c (List.get?_mem hg)))

/-- Witness for C5 at a concrete dataset containing the space character
on both sides. -/
theorem tensor_slices_one_hot_witness :
    ExactlyOneHot (encoder_input_data [['a', ' ']] 0 0) ∧
    encoder_input_data [['a', ' ']] 0 0 =
      oneHot (num_encoder_tokens [['a', ' ']])
        (tokenIndex (input_characters [['a', ' ']]) 'a') := by
  obtain ⟨henc, hdin, hdtg⟩ :=
    tensor_slices_one_hot [['a', ' ']] [[' ']] (by decide) (by decide)
      (by decide)
  exact ⟨(henc 0 (by decide) 0 (by decide)).1,
         (henc 0 (by decide) 0 (by decide)).2.1 'a' (by decide)⟩

/-! ## Lemmas about `argmax` -/

/-- The scanning helper never returns an index at or past the scanned
region, provided the incoming best index is already below `pos`. -/
theorem argmaxGo_lt : ∀ (xs : List ℚ) (pos best : Nat) (bestVal : ℚ),
    best < pos → argmaxGo pos best bestVal xs < pos + xs.length := by
  intro xs
  induction xs with
  | nil =>
      intro pos best bestVal h
      simpa [argmaxGo] using h
  | cons x xs ih =>
      intro pos best bestVal h
      simp only [argmaxGo, List.length_cons]
      split
      · have h2 := ih (pos + 1) pos x (by omega)
        omega
      · have h2 := ih (pos + 1) best bestVal (by omega)
        omega

/-- `np.argmax` of a nonempty list is a valid index into it. -/
theorem argmax_lt {l : List ℚ} (h : l ≠ []) : argmax l < l.length := by
  rcases l with _ | ⟨x, xs⟩
  · exact absurd rfl h
  · have h2 := argmaxGo_lt xs 1 0 x (by omega)
    simp only [argmax, List.length_cons]
    omega

/-- C10: every processed target text is wrapped in `'\t'` and `'\n'`
before vocabulary construction, so on a nonempty dataset the target
vocabulary contains both markers; the start-token lookup
`target_token_index['\t']` is a valid dense index (the lookup never
fails); the reverse lookup is defined at every index below
`num_decoder_tokens` and inverts the token index; and in particular it is
defined at the argmax of any distribution of width `num_decoder_tokens`. -/
theorem markers_in_target_vocab (raw : List Text) (hne : raw ≠ []) :
    '\t' ∈ target_characters raw ∧
    '\n' ∈ target_characters raw ∧
    tokenIndex (target_characters raw) '\t' < num_decoder_tokens raw ∧
    (∀ j, j < num_decoder_tokens raw →
      ∃ c, reverse_target_char_index raw j = some c ∧
        tokenIndex (target_characters raw) c = j) ∧
    (∀ dist : List ℚ, dist.length = num_decoder_tokens raw →
      ∃ c, reverse_target_char_index raw (argmax dist) = some c) := by
  obtain ⟨s, hs⟩ : ∃ s, s ∈ raw := by
    rcases raw with _ | ⟨s, rest⟩
    · exact absurd rfl hne
    · exact ⟨s, List.mem_cons_self s rest⟩
  have htab : '\t' ∈ target_characters raw :=
    (mem_buildVocab _ _).mpr
      ⟨wrapTarget s, List.mem_map_of_mem _ hs, by simp [wrapTarget]⟩
  have hnl : '\n' ∈ target_characters raw :=
    (mem_buildVocab _ _).mpr
      ⟨wrapTarget s, List.mem_map_of_mem _ hs, by simp [wrapTarget]⟩
  refine ⟨htab, hnl, tokenIndex_lt_of_mem htab, ?_, ?_⟩
  · intro j hj
    have hj' : j < (target_characters raw).length := hj
    refine ⟨(target_characters raw).get ⟨j, hj'⟩, List.get?_eq_get hj', ?_⟩
    have hix := List.indexOf_getElem (buildVocab_nodup (target_texts raw)) j hj'
    simpa [tokenIndex, List.get_eq_getElem] using hix
  · intro dist hd
    have hpos : 0 < num_decoder_tokens raw :=
      Nat.lt_of_le_of_lt (Nat.zero_le _) (tokenIndex_lt_of_mem htab)
    have hnn : dist ≠ [] := by
      intro hcon
      rw [hcon] at hd
      simp at hd
      omega
    have hlt : argmax dist < (target_characters raw).length := by
      have h3 := argmax_lt hnn
      rw [hd] at h3
      exact h3
    exact ⟨(target_characters raw).get ⟨argmax dist, hlt⟩,
      List.get?_eq_get hlt⟩

/-- Witness for C10 at a one-line dataset. -/
theorem markers_in_target_vocab_witness :
    '\t' ∈ target_characters [[]] ∧
    tokenIndex (target_characters [[]]) '\t' < num_decoder_tokens [[]] :=
  ⟨(markers_in_target_vocab [[]] (by decide)).1,
   (markers_in_target_vocab [[]] (by decide)).2.2.1⟩

end LstmSeq2Seq
